import Mathlib

/-!
Shallow embedding of `src/artiq/coredevice/fastino.py` (the Fastino
32-channel streaming-DAC RTIO driver) and verification of its
specification claims.

Modelling conventions:
* 32-bit machine words that travel to the RTIO bus (addresses, register
  data, packed DAC words, masks) are modelled as `Nat` bit patterns
  (values `< 2^32`); the numpy/kernel `int32(...)` truncating cast is an
  explicit `% 2^32` on patterns, and `int32` below for signed values.
* Signed int32 quantities that the source compares against `0` (the
  `voltage_to_mu` datum and the `stage_cic_mu` arguments) are modelled as
  `Int`, with two's-complement wrap made explicit where the source casts.
* SI voltages (Python floats) are idealised as exact rationals `ℚ`.
* The RTIO transport (`rtio_output`, `rtio_output_wide`) is modelled as a
  trace of emitted events; a fallible operation returns the trace emitted
  before its outcome, so "raises before any write" is observable.
* A `raise` statement becomes a `DriverError` value; the bounds-checked
  kernel list write `data[i] = v` becomes an explicit index check that
  fails with `DriverError.indexOutOfBounds`.
-/

/-- Errors raised by the driver: the `ValueError`s of the source, the
`assert` in `stage_cic`, and the kernel's list-index bounds check. -/
inductive DriverError where
  /-- Source `ValueError("DAC voltage out of bounds")` in `voltage_to_mu`. -/
  | voltageOutOfBounds
  /-- Source `ValueError("Group index LSBs must be zero")` in `set_group_mu`. -/
  | groupIndexMisaligned
  /-- Source `ValueError("rate out of bounds")` in `stage_cic`. -/
  | rateOutOfBounds
  /-- Source `ValueError("rate_mantissa out of bounds")` in `stage_cic_mu`. -/
  | rateMantissaOutOfBounds
  /-- Source `ValueError("rate_exponent out of bounds")` in `stage_cic_mu`. -/
  | rateExponentOutOfBounds
  /-- Source `ValueError("gain_exponent out of bounds")` in `stage_cic_mu`. -/
  | gainExponentOutOfBounds
  /-- Failure of `assert gain_exponent <= order*16` in `stage_cic`. -/
  | assertionFailed
  /-- Out-of-range list element write (kernel bounds check). -/
  | indexOutOfBounds
deriving DecidableEq, Repr

/-- One word or burst written to the RTIO bus, mirroring the transport
primitives `rtio_output` and `rtio_output_wide` of
`artiq.coredevice.rtio`. -/
inductive RtioEvent where
  /-- Source `rtio_output(addr, data)`: one 32-bit register write. -/
  | rtio_output (addr : Nat) (data : Nat)
  /-- Source `rtio_output_wide(addr, data)`: one wide (multi-word) write. -/
  | rtio_output_wide (addr : Nat) (data : List Nat)
deriving DecidableEq, Repr

/-- Device handle state fixed by `Fastino.__init__`: `self.channel`
(already shifted left by 8), `self.width = 1 << log2_width` and
`self.t_frame = 14*7*4`. -/
structure Fastino where
  channel : Nat
  width : Nat
  t_frame : Int
deriving DecidableEq, Repr

/-- Source `Fastino.__init__(dmgr, channel, core_device, log2_width)`:
stores `channel << 8`, `1 << log2_width` and the frame duration. -/
def mkFastino (channel : Nat) (log2_width : Nat) : Fastino :=
  { channel := channel <<< 8, width := 1 <<< log2_width, t_frame := 14 * 7 * 4 }

/-- Two's-complement wrap of an integer into `[-2^31, 2^31)`: the
truncating `int32(...)` cast applied by the source to signed values. -/
def int32 (x : Int) : Int :=
  (x + 2 ^ 31) % 2 ^ 32 - 2 ^ 31

/-- Modelled from the spec: the `round` primitive used by
`voltage_to_mu`. Its semantics live in the kernel runtime/compiler
(`artiq.language`, not under `src/`); per the spec, ties round to
nearest away from zero. -/
def round_half_away (x : ℚ) : Int :=
  if 0 ≤ x then ⌊x + 1 / 2⌋ else ⌈x - 1 / 2⌉

namespace Fastino

/-- Source `Fastino.write(addr, data)`: `rtio_output(self.channel | addr, data)`. -/
def write (self : Fastino) (addr : Nat) (data : Nat) : List RtioEvent :=
  [.rtio_output (self.channel ||| addr) data]

/-- Source `Fastino.set_dac_mu(dac, data)`: `self.write(dac, data)`. -/
def set_dac_mu (self : Fastino) (dac : Nat) (data : Nat) : List RtioEvent :=
  self.write dac data

/-- Source `Fastino.set_group_mu(dac, data)`: alignment check, then one wide
write `rtio_output_wide(self.channel | dac, data)`. -/
def set_group_mu (self : Fastino) (dac : Nat) (data : List Nat) :
    List RtioEvent × Except DriverError Unit :=
  if dac &&& (self.width - 1) ≠ 0 then ([], .error .groupIndexMisaligned)
  else ([.rtio_output_wide (self.channel ||| dac) data], .ok ())

/-- Source `Fastino.voltage_to_mu(voltage)`:
`data = int32(round((float(0x8000)/10.)*voltage)) + int32(0x8000)`,
rejected unless `0 <= data <= 0xffff`. -/
def voltage_to_mu (self : Fastino) (voltage : ℚ) : Except DriverError Int :=
  let data : Int := int32 (round_half_away ((0x8000 : ℚ) / 10 * voltage)) + 0x8000
  if data < 0 ∨ 0xffff < data then .error .voltageOutOfBounds
  else .ok data

/-- One iteration `i` of the loop in `Fastino.voltage_group_to_mu`:
`v = voltage_to_mu(voltage[i])`; if `i` is odd, `v = data[i//2] | (v << 16)`;
then the bounds-checked store `data[i//2] = int32(v)`. -/
def vgStep (self : Fastino) (voltage : List ℚ)
    (acc : Except DriverError (List Nat)) (i : Nat) :
    Except DriverError (List Nat) :=
  match acc with
  | .error e => .error e
  | .ok data =>
    match self.voltage_to_mu (voltage.getD i 0) with
    | .error e => .error e
    | .ok mu =>
      if h : i / 2 < data.length then
        let v : Nat :=
          if i &&& 1 ≠ 0 then data.get ⟨i / 2, h⟩ ||| mu.toNat <<< 16
          else mu.toNat
        .ok (data.set (i / 2) (v % 2 ^ 32))
      else .error .indexOutOfBounds

/-- Source `Fastino.voltage_group_to_mu(voltage, data)`:
`for i in range(len(voltage))`, run `vgStep`; returns the final contents
of the caller-supplied `data` list (the source mutates it in place). -/
def voltage_group_to_mu (self : Fastino) (voltage : List ℚ) (data : List Nat) :
    Except DriverError (List Nat) :=
  (List.range voltage.length).foldl (self.vgStep voltage) (.ok data)

/-- Source `Fastino.set_dac(dac, voltage)`: `self.write(dac, self.voltage_to_mu(voltage))`. -/
def set_dac (self : Fastino) (dac : Nat) (voltage : ℚ) :
    List RtioEvent × Except DriverError Unit :=
  match self.voltage_to_mu voltage with
  | .error e => ([], .error e)
  | .ok mu => (self.write dac mu.toNat, .ok ())

/-- Source `Fastino.set_group(dac, voltage)`:
`data = [int32(0) for _ in range(len(voltage) // 2)]`, then
`voltage_group_to_mu`, then `set_group_mu`. -/
def set_group (self : Fastino) (dac : Nat) (voltage : List ℚ) :
    List RtioEvent × Except DriverError Unit :=
  match self.voltage_group_to_mu voltage (List.replicate (voltage.length / 2) 0) with
  | .error e => ([], .error e)
  | .ok data => self.set_group_mu dac data

/-- Source `Fastino.update(update)`: `self.write(0x20, update)`. -/
def update (self : Fastino) (upd : Nat) : List RtioEvent :=
  self.write 0x20 upd

/-- Source `Fastino.set_hold(hold)`: `self.write(0x21, hold)`. -/
def set_hold (self : Fastino) (hold : Nat) : List RtioEvent :=
  self.write 0x21 hold

/-- Source `Fastino.set_cfg(reset, afe_power_down, dac_clr, clr_err)`:
`self.write(0x22, int32(reset) << 0 | int32(afe_power_down) << 1 |
int32(dac_clr) << 2 | int32(clr_err) << 3)`. -/
def set_cfg (self : Fastino) (reset afe_power_down dac_clr clr_err : Bool) :
    List RtioEvent :=
  self.write 0x22 (reset.toNat ||| afe_power_down.toNat <<< 1 |||
    dac_clr.toNat <<< 2 ||| clr_err.toNat <<< 3)

/-- Source `Fastino.set_leds(leds)`: `self.write(0x23, leds)`. -/
def set_leds (self : Fastino) (leds : Nat) : List RtioEvent :=
  self.write 0x23 leds

/-- Source `Fastino.set_continuous(channel_mask)`: `self.write(0x25, channel_mask)`. -/
def set_continuous (self : Fastino) (channel_mask : Nat) : List RtioEvent :=
  self.write 0x25 channel_mask

/-- Source `Fastino.stage_cic_mu(rate_mantissa, rate_exponent, gain_exponent)`:
three range checks, then
`self.write(0x26, rate_mantissa | rate_exponent << 6 | gain_exponent << 10)`. -/
def stage_cic_mu (self : Fastino)
    (rate_mantissa rate_exponent gain_exponent : Int) :
    List RtioEvent × Except DriverError Unit :=
  if rate_mantissa < 0 ∨ 64 ≤ rate_mantissa then
    ([], .error .rateMantissaOutOfBounds)
  else if rate_exponent < 0 ∨ 16 ≤ rate_exponent then
    ([], .error .rateExponentOutOfBounds)
  else if gain_exponent < 0 ∨ 64 ≤ gain_exponent then
    ([], .error .gainExponentOutOfBounds)
  else
    (self.write 0x26 (rate_mantissa.toNat ||| rate_exponent.toNat <<< 6 |||
      gain_exponent.toNat <<< 10), .ok ())

/-- Source `Fastino.apply_cic(channel_mask)`: `self.write(0x27, channel_mask)`. -/
def apply_cic (self : Fastino) (channel_mask : Nat) : List RtioEvent :=
  self.write 0x27 channel_mask

/-- The `order = 3` local of `Fastino.stage_cic` (cubic CIC). -/
def order : Nat := 3

end Fastino

/-- The mantissa/exponent quantization loop of `Fastino.stage_cic`:
`while rate_mantissa > 1 << 6: rate_exponent += 1; rate_mantissa >>= 1`. -/
def cicShift (rate_mantissa rate_exponent : Nat) : Nat × Nat :=
  if 1 <<< 6 < rate_mantissa then cicShift (rate_mantissa >>> 1) (rate_exponent + 1)
  else (rate_mantissa, rate_exponent)
termination_by rate_mantissa
decreasing_by
  simp only [Nat.shiftRight_succ, Nat.shiftRight_zero]
  omega

/-- The gain loop of `Fastino.stage_cic`:
`gain = 1; for i in range(order): gain *= rate_mantissa`. -/
def cicGain (rate_mantissa : Nat) : Nat :=
  (List.range Fastino.order).foldl (fun gain _ => gain * rate_mantissa) 1

/-- The gain-compensation loop of `Fastino.stage_cic`:
`while gain > 1 << gain_exponent: gain_exponent += 1`. -/
def gainLog (gain gain_exponent : Nat) : Nat :=
  if 1 <<< gain_exponent < gain then gainLog gain (gain_exponent + 1)
  else gain_exponent
termination_by gain - 1 <<< gain_exponent
decreasing_by
  simp only [Nat.one_shiftLeft] at *
  have h2 : 2 ^ gain_exponent < 2 ^ (gain_exponent + 1) :=
    Nat.pow_lt_pow_succ (by norm_num)
  omega

/-- The three locals `(rate_mantissa, rate_exponent, gain_exponent)`
computed by `Fastino.stage_cic` for an in-range rate, with
`gain_exponent` already including the final `+ order*rate_exponent`. -/
def cicParams (rate : Nat) : Nat × Nat × Nat :=
  let p := cicShift rate 0
  (p.1, p.2, gainLog (cicGain p.1) 0 + Fastino.order * p.2)

namespace Fastino

/-- Source `Fastino.stage_cic(rate)`: range check, quantization and gain
loops, `assert gain_exponent <= order*16`, `stage_cic_mu`, and the
achieved rate `rate_mantissa << rate_exponent` as return value. -/
def stage_cic (self : Fastino) (rate : Int) :
    List RtioEvent × Except DriverError Int :=
  if rate ≤ 0 ∨ 65536 < rate then ([], .error .rateOutOfBounds)
  else
    let p := cicParams rate.toNat
    if p.2.2 ≤ order * 16 then
      match self.stage_cic_mu ((p.1 : Int) - 1) (p.2.1 : Int) (p.2.2 : Int) with
      | (evs, .ok _) => (evs, .ok ((p.1 <<< p.2.1 : Nat) : Int))
      | (evs, .error e) => (evs, .error e)
    else ([], .error .assertionFailed)

end Fastino

/-! Properties of the quantization loop `cicShift`. -/

theorem cicShift_fst_le_64 (m e : Nat) : (cicShift m e).1 ≤ 64 := by
  induction m, e using cicShift.induct with
  | case1 m e hgt ih =>
    rw [cicShift, if_pos hgt]
    exact ih
  | case2 m e hle =>
    rw [cicShift, if_neg hle]
    simp only [Nat.one_shiftLeft] at hle
    norm_num at hle ⊢
    omega

theorem cicShift_fst_pos (m e : Nat) (hm : 1 ≤ m) : 1 ≤ (cicShift m e).1 := by
  induction m, e using cicShift.induct with
  | case1 m e hgt ih =>
    rw [cicShift, if_pos hgt]
    apply ih
    simp only [Nat.one_shiftLeft, Nat.shiftRight_succ, Nat.shiftRight_zero] at hgt ⊢
    norm_num at hgt
    omega
  | case2 m e hle =>
    rw [cicShift, if_neg hle]
    exact hm

theorem cicShift_mul_le (m e : Nat) :
    (cicShift m e).1 * 2 ^ (cicShift m e).2 ≤ m * 2 ^ e := by
  induction m, e using cicShift.induct with
  | case1 m e hgt ih =>
    rw [cicShift, if_pos hgt]
    refine le_trans ih ?_
    simp only [Nat.shiftRight_succ, Nat.shiftRight_zero]
    calc m / 2 * 2 ^ (e + 1) = m / 2 * 2 * 2 ^ e := by ring
      _ ≤ m * 2 ^ e := Nat.mul_le_mul_right _ (Nat.div_mul_le_self m 2)
  | case2 m e hle =>
    rw [cicShift, if_neg hle]

theorem cicShift_succ_mul_le (m e : Nat) :
    (m + 1) * 2 ^ e ≤ ((cicShift m e).1 + 1) * 2 ^ (cicShift m e).2 := by
  induction m, e using cicShift.induct with
  | case1 m e hgt ih =>
    rw [cicShift, if_pos hgt]
    refine le_trans ?_ ih
    simp only [Nat.shiftRight_succ, Nat.shiftRight_zero]
    calc (m + 1) * 2 ^ e ≤ (m / 2 * 2 + 2) * 2 ^ e := by
          have := Nat.div_add_mod m 2
          have : m + 1 ≤ m / 2 * 2 + 2 := by omega
          exact Nat.mul_le_mul_right _ this
      _ = (m / 2 + 1) * 2 ^ (e + 1) := by ring
  | case2 m e hle =>
    rw [cicShift, if_neg hle]

theorem cicShift_snd_ge (m e : Nat) : e ≤ (cicShift m e).2 := by
  induction m, e using cicShift.induct with
  | case1 m e hgt ih =>
    rw [cicShift, if_pos hgt]
    omega
  | case2 m e hle =>
    rw [cicShift, if_neg hle]

theorem cicShift_fst_ge_32 (m e : Nat) (h : e < (cicShift m e).2) :
    32 ≤ (cicShift m e).1 := by
  induction m, e using cicShift.induct with
  | case1 m e hgt ih =>
    rw [cicShift, if_pos hgt] at h ⊢
    by_cases h2 : 1 <<< 6 < m >>> 1
    · apply ih
      rw [cicShift, if_pos h2]
      have := cicShift_snd_ge (m >>> 1 >>> 1) (e + 1 + 1)
      omega
    · rw [cicShift, if_neg h2]
      simp only [Nat.one_shiftLeft, Nat.shiftRight_succ, Nat.shiftRight_zero] at hgt ⊢
      norm_num at hgt
      omega
  | case2 m e hle =>
    rw [cicShift, if_neg hle] at h
    exact absurd h (lt_irrefl e)

/-! Properties of the gain-compensation loop `gainLog`. -/

theorem gainLog_le (g t s : Nat) (hts : t ≤ s) (hgs : g ≤ 2 ^ s) :
    gainLog g t ≤ s := by
  have key : ∀ n t, t ≤ s → s - t ≤ n → gainLog g t ≤ s := by
    intro n
    induction n with
    | zero =>
      intro t hts hst
      have hst2 : s = t := by omega
      rw [gainLog, if_neg ?_]
      · exact hts
      · simp only [Nat.one_shiftLeft]
        rw [hst2] at hgs
        omega
    | succ n ih =>
      intro t hts hst
      rw [gainLog]
      split
      · rename_i hlt
        rcases Nat.eq_or_lt_of_le hts with he | hlt2
        · exfalso
          simp only [Nat.one_shiftLeft] at hlt
          rw [← he] at hgs
          omega
        · exact ih (t + 1) hlt2 (by omega)
      · exact hts
  exact key (s - t) t hts le_rfl

theorem cicGain_eq (m : Nat) : cicGain m = m * m * m := by
  show (List.range 3).foldl (fun g _ => g * m) 1 = m * m * m
  simp [List.range_succ]

/-! Bounds on the three `stage_cic` locals for an in-range rate. -/

theorem cicParams_fst_le (r : Nat) : (cicParams r).1 ≤ 64 :=
  cicShift_fst_le_64 r 0

theorem cicParams_fst_pos (r : Nat) (h : 1 ≤ r) : 1 ≤ (cicParams r).1 :=
  cicShift_fst_pos r 0 h

theorem cicParams_achieved_le (r : Nat) :
    (cicParams r).1 * 2 ^ (cicParams r).2.1 ≤ r := by
  have := cicShift_mul_le r 0
  simpa using this

theorem cicParams_achieved_gt (r : Nat) :
    r + 1 ≤ ((cicParams r).1 + 1) * 2 ^ (cicParams r).2.1 := by
  have := cicShift_succ_mul_le r 0
  simpa using this

theorem cicParams_snd_le (r : Nat) (h1 : 1 ≤ r) (h2 : r ≤ 65536) :
    (cicParams r).2.1 ≤ 11 := by
  rcases Nat.eq_zero_or_pos (cicParams r).2.1 with h | h
  · omega
  · have h32 : 32 ≤ (cicParams r).1 := cicShift_fst_ge_32 r 0 h
    have hle : (cicParams r).1 * 2 ^ (cicParams r).2.1 ≤ 65536 :=
      le_trans (cicParams_achieved_le r) h2
    have hpow : 2 ^ 5 * 2 ^ (cicParams r).2.1 ≤ 2 ^ 16 := by
      calc 2 ^ 5 * 2 ^ (cicParams r).2.1
          ≤ (cicParams r).1 * 2 ^ (cicParams r).2.1 :=
            Nat.mul_le_mul_right _ h32
        _ ≤ 2 ^ 16 := hle
    rw [← pow_add] at hpow
    have := (Nat.pow_le_pow_iff_right (by norm_num : 1 < 2)).mp hpow
    omega

theorem cicParams_gain_le (r : Nat) (h1 : 1 ≤ r) (h2 : r ≤ 65536) :
    (cicParams r).2.2 ≤ 48 := by
  show gainLog (cicGain (cicShift r 0).1) 0 + Fastino.order * (cicShift r 0).2 ≤ 48
  rw [Fastino.order, cicGain_eq]
  set m := (cicShift r 0).1 with hm
  set e := (cicShift r 0).2 with he
  have hm1 : 1 ≤ m := cicShift_fst_pos r 0 h1
  have hme : m * 2 ^ e ≤ 65536 := by
    have h0 := cicShift_mul_le r 0
    simp only [pow_zero, mul_one] at h0
    rw [← hm, ← he] at h0
    omega
  rcases eq_or_lt_of_le hm1 with h1m | h1m
  · have hgl : gainLog (m * m * m) 0 = 0 := by
      rw [← h1m, gainLog]
      norm_num
    have he16 : e ≤ 16 := by
      have : 2 ^ e ≤ 2 ^ 16 := by
        calc 2 ^ e = 1 * 2 ^ e := (one_mul _).symm
          _ = m * 2 ^ e := by rw [← h1m]
          _ ≤ 2 ^ 16 := hme
      exact (Nat.pow_le_pow_iff_right (by norm_num : 1 < 2)).mp this
    omega
  · set k := Nat.clog 2 m with hk
    have hk1 : m ≤ 2 ^ k := Nat.le_pow_clog (by norm_num) m
    have hk2 : 2 ^ (k - 1) < m := by
      have := Nat.pow_pred_clog_lt_self (b := 2) (by norm_num) h1m
      simpa using this
    have hkpos : 0 < k := Nat.clog_pos (by norm_num) h1m
    have hgl : gainLog (m * m * m) 0 ≤ 3 * k := by
      apply gainLog_le _ _ _ (Nat.zero_le _)
      calc m * m * m ≤ 2 ^ k * 2 ^ k * 2 ^ k :=
            Nat.mul_le_mul (Nat.mul_le_mul hk1 hk1) hk1
        _ = 2 ^ (3 * k) := by ring
    have hke : k - 1 + e < 16 := by
      have hlt : 2 ^ (k - 1 + e) < 2 ^ 16 := by
        calc 2 ^ (k - 1 + e) = 2 ^ (k - 1) * 2 ^ e := pow_add 2 _ _
          _ < m * 2 ^ e := by
              exact mul_lt_mul_of_pos_right hk2 (by positivity)
          _ ≤ 2 ^ 16 := hme
      exact (Nat.pow_lt_pow_iff_right (by norm_num : 1 < 2)).mp hlt
    omega

theorem cicParams_achieved_two_mul (r : Nat) (h1 : 1 ≤ r) :
    r < 2 * ((cicParams r).1 * 2 ^ (cicParams r).2.1) := by
  have hgt := cicParams_achieved_gt r
  have hm1 := cicParams_fst_pos r h1
  have hstep : ((cicParams r).1 + 1) * 2 ^ (cicParams r).2.1 ≤
      2 * ((cicParams r).1 * 2 ^ (cicParams r).2.1) := by
    have h2m : (cicParams r).1 + 1 ≤ 2 * (cicParams r).1 := by omega
    calc ((cicParams r).1 + 1) * 2 ^ (cicParams r).2.1
        ≤ 2 * (cicParams r).1 * 2 ^ (cicParams r).2.1 :=
          Nat.mul_le_mul_right _ h2m
      _ = 2 * ((cicParams r).1 * 2 ^ (cicParams r).2.1) := by ring
  have := le_trans hgt hstep
  omega

/-- Evaluation of `stage_cic` on an in-range rate: all checks pass, one
staging write is emitted, and the achieved rate is returned. -/
theorem stage_cic_ok (self : Fastino) (rate : Int)
    (h1 : 1 ≤ rate) (h2 : rate ≤ 65536) :
    self.stage_cic rate =
      ([RtioEvent.rtio_output (self.channel ||| 0x26)
          (((cicParams rate.toNat).1 - 1) ||| (cicParams rate.toNat).2.1 <<< 6 |||
            (cicParams rate.toNat).2.2 <<< 10)],
        .ok ((cicParams rate.toNat).1 <<< (cicParams rate.toNat).2.1 : Nat)) := by
  have hr1 : 1 ≤ rate.toNat := by omega
  have hr2 : rate.toNat ≤ 65536 := by omega
  have hm1 : 1 ≤ (cicParams rate.toNat).1 := cicParams_fst_pos _ hr1
  have hm64 : (cicParams rate.toNat).1 ≤ 64 := cicParams_fst_le _
  have he11 : (cicParams rate.toNat).2.1 ≤ 11 := cicParams_snd_le _ hr1 hr2
  have hg48 : (cicParams rate.toNat).2.2 ≤ 48 := cicParams_gain_le _ hr1 hr2
  have ht1 : ((((cicParams rate.toNat).1 : Int)) - 1).toNat =
      (cicParams rate.toNat).1 - 1 := by omega
  simp only [Fastino.stage_cic, Fastino.stage_cic_mu, Fastino.write, Fastino.order]
  rw [if_neg (by omega), if_pos (by omega), if_neg (by omega),
    if_neg (by omega), if_neg (by omega)]
  simp only [ht1, Int.toNat_ofNat]

/-- C1: `stage_cic(rate)` raises the rate RangeError exactly when
`rate <= 0` or `rate > 65536` (and then writes nothing); for every rate
in `[1, 65536]` it succeeds with an achieved rate `a` satisfying
`a <= rate` and `a > rate/2` (that is, `rate < 2*a`), and the
`gain_exponent` it computes is at most 48. -/
theorem stage_cic_range_spec (self : Fastino) (rate : Int) :
    ((rate ≤ 0 ∨ 65536 < rate) →
      self.stage_cic rate = ([], .error .rateOutOfBounds)) ∧
    (1 ≤ rate → rate ≤ 65536 →
      ∃ a : Int, (self.stage_cic rate).2 = .ok a ∧ a ≤ rate ∧ rate < 2 * a ∧
        (cicParams rate.toNat).2.2 ≤ 48) := by
  constructor
  · intro h
    rw [Fastino.stage_cic, if_pos h]
  · intro h1 h2
    refine ⟨(((cicParams rate.toNat).1 <<< (cicParams rate.toNat).2.1 : Nat) : Int),
      ?_, ?_, ?_, cicParams_gain_le _ (by omega) (by omega)⟩
    · rw [stage_cic_ok self rate h1 h2]
    · have hle := cicParams_achieved_le rate.toNat
      have hcast : (((cicParams rate.toNat).1 * 2 ^ (cicParams rate.toNat).2.1 : Nat) : Int)
          ≤ ((rate.toNat : Nat) : Int) := Int.ofNat_le.mpr hle
      rw [Int.toNat_of_nonneg (by omega)] at hcast
      rw [Nat.shiftLeft_eq]
      exact hcast
    · have hgt := cicParams_achieved_two_mul rate.toNat (by omega)
      have hcast : ((rate.toNat : Nat) : Int) <
          ((2 * ((cicParams rate.toNat).1 * 2 ^ (cicParams rate.toNat).2.1) : Nat) : Int) :=
        Int.ofNat_lt.mpr hgt
      rw [Int.toNat_of_nonneg (by omega)] at hcast
      rw [Nat.shiftLeft_eq]
      push_cast at hcast ⊢
      omega

/-- Concrete witness for `stage_cic_range_spec` at rate 100: achieved
rate 96 with all the stated bounds. -/
theorem stage_cic_range_spec_witness :
    ∃ a : Int, ((mkFastino 3 2).stage_cic 100).2 = .ok a ∧ a ≤ 100 ∧
      100 < 2 * a ∧ (cicParams ((100 : Int)).toNat).2.2 ≤ 48 :=
  (stage_cic_range_spec (mkFastino 3 2) 100).2 (by norm_num) (by norm_num)

theorem cicShift_two_pow (k e : Nat) :
    cicShift (2 ^ k) e = if k ≤ 6 then (2 ^ k, e) else (64, e + (k - 6)) := by
  induction k generalizing e with
  | zero =>
    rw [cicShift, if_neg (by decide), if_pos (by norm_num)]
  | succ n ih =>
    by_cases hn : n + 1 ≤ 6
    · have hcond : ¬1 <<< 6 < 2 ^ (n + 1) := by
        simp only [Nat.one_shiftLeft]
        push_neg
        calc 2 ^ (n + 1) ≤ 2 ^ 6 := Nat.pow_le_pow_right (by norm_num) hn
          _ = 64 := by norm_num
      rw [cicShift, if_neg hcond, if_pos hn]
    · have hcond : 1 <<< 6 < 2 ^ (n + 1) := by
        simp only [Nat.one_shiftLeft]
        exact Nat.pow_lt_pow_right (by norm_num) (by omega)
      have hsh : 2 ^ (n + 1) >>> 1 = 2 ^ n := by
        rw [Nat.shiftRight_one, pow_succ, Nat.mul_div_cancel _ (by norm_num)]
      rw [cicShift, if_pos hcond, hsh, ih (e + 1), if_neg hn]
      by_cases hn6 : n ≤ 6
      · have hn7 : n = 6 := by omega
        subst hn7
        rw [if_pos (le_refl 6)]
        norm_num
      · rw [if_neg hn6]
        have : e + 1 + (n - 6) = e + (n + 1 - 6) := by omega
        rw [this]

theorem gainLog_two_pow (n t : Nat) (h : t ≤ n) : gainLog (2 ^ n) t = n := by
  have key : ∀ fuel t, t ≤ n → n - t ≤ fuel → gainLog (2 ^ n) t = n := by
    intro fuel
    induction fuel with
    | zero =>
      intro t ht hf
      have ht2 : t = n := by omega
      subst ht2
      rw [gainLog, if_neg ?_]
      simp only [Nat.one_shiftLeft]
      omega
    | succ f ih =>
      intro t ht hf
      rcases Nat.eq_or_lt_of_le ht with he | hlt
      · subst he
        rw [gainLog, if_neg ?_]
        simp only [Nat.one_shiftLeft]
        omega
      · rw [gainLog, if_pos ?_]
        · exact ih (t + 1) hlt (by omega)
        · simp only [Nat.one_shiftLeft]
          exact Nat.pow_lt_pow_right (by norm_num) hlt
  exact key (n - t) t h le_rfl

/-- The quantization of a power-of-two rate `2^k`: no mantissa loss, and
gain exponent exactly `3*k`. -/
theorem cicParams_two_pow (k : Nat) :
    cicParams (2 ^ k) = if k ≤ 6 then (2 ^ k, 0, 3 * k) else (64, k - 6, 3 * k) := by
  show ((cicShift (2 ^ k) 0).1, (cicShift (2 ^ k) 0).2,
      gainLog (cicGain (cicShift (2 ^ k) 0).1) 0 +
        Fastino.order * (cicShift (2 ^ k) 0).2) = _
  rw [cicShift_two_pow]
  by_cases hk : k ≤ 6
  · rw [if_pos hk, if_pos hk]
    dsimp only
    rw [cicGain_eq, show (2 : Nat) ^ k * 2 ^ k * 2 ^ k = 2 ^ (3 * k) by ring,
      gainLog_two_pow _ 0 (Nat.zero_le _), Fastino.order]
    norm_num
  · rw [if_neg hk, if_neg hk]
    dsimp only
    rw [cicGain_eq, show (64 : Nat) * 64 * 64 = 2 ^ 18 by norm_num,
      gainLog_two_pow _ 0 (Nat.zero_le _), Fastino.order]
    rw [show 0 + (k - 6) = k - 6 by omega, show 18 + 3 * (k - 6) = 3 * k by omega]

theorem cicParams_two_pow_achieved (k : Nat) :
    (cicParams (2 ^ k)).1 <<< (cicParams (2 ^ k)).2.1 = 2 ^ k := by
  rw [cicParams_two_pow]
  by_cases hk : k ≤ 6
  · rw [if_pos hk]
    dsimp only
    rw [Nat.shiftLeft_eq, pow_zero, mul_one]
  · rw [if_neg hk]
    dsimp only
    rw [Nat.shiftLeft_eq, show (64 : Nat) = 2 ^ 6 by norm_num, ← pow_add]
    congr 1
    omega

/-- C2: for every k with 0 ≤ k ≤ 16, `stage_cic(2^k)` returns achieved
rate exactly `2^k` and computes `gain_exponent = 3*k`; `stage_cic(1)`
returns achieved rate 1 and stages the config word 0, i.e.
`rate_mantissa = 0`, `rate_exponent = 0`, `gain_exponent = 0`. -/
theorem stage_cic_pow2_exact (self : Fastino) (k : Nat) (hk : k ≤ 16) :
    (self.stage_cic ((2 : Int) ^ k)).2 = .ok ((2 : Int) ^ k) ∧
    (cicParams (2 ^ k)).2.2 = 3 * k ∧
    self.stage_cic 1 = ([.rtio_output (self.channel ||| 0x26) 0], .ok 1) := by
  have hcast : ((2 : Int) ^ k) = ((2 ^ k : Nat) : Int) := by push_cast; ring
  have h1 : (1 : Int) ≤ ((2 ^ k : Nat) : Int) := by
    exact_mod_cast Nat.one_le_two_pow
  have h2 : ((2 ^ k : Nat) : Int) ≤ 65536 := by
    have hp : (2 : Nat) ^ k ≤ 2 ^ 16 := Nat.pow_le_pow_right (by norm_num) hk
    exact_mod_cast le_trans hp (by norm_num)
  refine ⟨?_, ?_, ?_⟩
  · rw [hcast, stage_cic_ok self _ h1 h2, Int.toNat_natCast,
      cicParams_two_pow_achieved]
  · rw [cicParams_two_pow]
    by_cases hk6 : k ≤ 6
    · rw [if_pos hk6]
    · rw [if_neg hk6]
  · rw [show (1 : Int) = ((2 ^ 0 : Nat) : Int) by norm_num,
      stage_cic_ok self _ (by norm_num) (by norm_num), Int.toNat_natCast,
      cicParams_two_pow]
    norm_num [Nat.shiftLeft_eq]

/-- Concrete witness for `stage_cic_pow2_exact` at k = 10 on a device
with channel 3 and log2_width 2. -/
theorem stage_cic_pow2_exact_witness :
    ((mkFastino 3 2).stage_cic ((2 : Int) ^ 10)).2 = .ok ((2 : Int) ^ 10) ∧
    (cicParams (2 ^ 10)).2.2 = 3 * 10 ∧
    (mkFastino 3 2).stage_cic 1 =
      ([.rtio_output ((mkFastino 3 2).channel ||| 0x26) 0], .ok 1) :=
  stage_cic_pow2_exact (mkFastino 3 2) 10 (by norm_num)

/-- C9: for every rate in [1, 65536] the internal assertion
`gain_exponent <= order*16 = 48` holds, and the three `stage_cic_mu`
range checks (mantissa in [0,63], exponent in [0,15], gain exponent in
[0,63]) cannot fire on the arguments `stage_cic` passes, so `stage_cic`
always succeeds on an in-range rate. -/
theorem stage_cic_mu_checks_unreachable (self : Fastino) (rate : Int)
    (h1 : 1 ≤ rate) (h2 : rate ≤ 65536) :
    (cicParams rate.toNat).2.2 ≤ 48 ∧
    (1 ≤ (cicParams rate.toNat).1 ∧ (cicParams rate.toNat).1 - 1 ≤ 63 ∧
      (cicParams rate.toNat).2.1 ≤ 15 ∧ (cicParams rate.toNat).2.2 ≤ 63) ∧
    ∃ a, (self.stage_cic rate).2 = .ok a := by
  have hr1 : 1 ≤ rate.toNat := by omega
  have hr2 : rate.toNat ≤ 65536 := by omega
  have hm1 := cicParams_fst_pos rate.toNat hr1
  have hm := cicParams_fst_le rate.toNat
  have he := cicParams_snd_le rate.toNat hr1 hr2
  have hg := cicParams_gain_le rate.toNat hr1 hr2
  exact ⟨hg, ⟨hm1, by omega, by omega, by omega⟩,
    ⟨_, by rw [stage_cic_ok self rate h1 h2]⟩⟩

/-- Concrete witness for `stage_cic_mu_checks_unreachable` at the
extreme rate 65536, where the gain exponent reaches exactly 48. -/
theorem stage_cic_mu_checks_unreachable_witness :
    (cicParams ((65536 : Int)).toNat).2.2 ≤ 48 ∧
    (1 ≤ (cicParams ((65536 : Int)).toNat).1 ∧
      (cicParams ((65536 : Int)).toNat).1 - 1 ≤ 63 ∧
      (cicParams ((65536 : Int)).toNat).2.1 ≤ 15 ∧
      (cicParams ((65536 : Int)).toNat).2.2 ≤ 63) ∧
    ∃ a, ((mkFastino 0 5).stage_cic 65536).2 = .ok a :=
  stage_cic_mu_checks_unreachable (mkFastino 0 5) 65536 (by norm_num) (by norm_num)

/-- C6: a grouped write fails with the alignment error exactly when the
first channel is not a multiple of the group width; the alignment error
is the only error `set_group_mu` can raise, it is raised before any
write is issued, and in single-channel mode (`log2_width = 0`, width 1)
the check never fails for any channel index. -/
theorem set_group_mu_alignment (ch l2w dac : Nat) (data : List Nat) :
    ((((mkFastino ch l2w).set_group_mu dac data).2 = .error .groupIndexMisaligned ↔
      dac % (mkFastino ch l2w).width ≠ 0) ∧
    (∀ e, ((mkFastino ch l2w).set_group_mu dac data).2 = .error e →
      e = .groupIndexMisaligned)) ∧
    (dac % (mkFastino ch l2w).width ≠ 0 →
      (mkFastino ch l2w).set_group_mu dac data = ([], .error .groupIndexMisaligned)) ∧
    (l2w = 0 → ((mkFastino ch l2w).set_group_mu dac data).2 = .ok ()) := by
  have hw : (mkFastino ch l2w).width = 2 ^ l2w := by
    show 1 <<< l2w = 2 ^ l2w
    rw [Nat.one_shiftLeft]
  have hand : dac &&& ((mkFastino ch l2w).width - 1) = dac % (mkFastino ch l2w).width := by
    rw [hw]
    exact Nat.and_pow_two_sub_one_eq_mod dac l2w
  have hsplit : (mkFastino ch l2w).set_group_mu dac data =
      if dac % (mkFastino ch l2w).width ≠ 0 then ([], .error .groupIndexMisaligned)
      else ([.rtio_output_wide ((mkFastino ch l2w).channel ||| dac) data], .ok ()) := by
    rw [Fastino.set_group_mu, hand]
  by_cases hc : dac % (mkFastino ch l2w).width = 0
  · rw [hsplit, if_neg (by simpa using hc)]
    refine ⟨⟨by simp [hc], by simp⟩, fun h => absurd hc h, fun _ => rfl⟩
  · rw [hsplit, if_pos hc]
    refine ⟨⟨by simpa using hc, ?_⟩, fun _ => rfl, ?_⟩
    · intro e he
      simpa using he.symm
    · intro hl
      exfalso
      apply hc
      rw [hw, hl]
      simp [Nat.mod_one]

/-- Concrete witness for `set_group_mu_alignment`: on a width-4 device,
channel 2 is misaligned and rejected with no write; and in width-1 mode
channel 2 is accepted. -/
theorem set_group_mu_alignment_witness :
    (mkFastino 1 2).set_group_mu 2 [] = ([], .error .groupIndexMisaligned) ∧
    ((mkFastino 1 0).set_group_mu 2 []).2 = .ok () :=
  ⟨(set_group_mu_alignment 1 2 2 []).2.1 (by decide),
    (set_group_mu_alignment 1 0 2 []).2.2 rfl⟩

/-! Concrete machine-unit conversions used by several claims. -/

theorem mu_of_zero (self : Fastino) : self.voltage_to_mu 0 = .ok 0x8000 := by
  have hr : round_half_away ((0x8000 : ℚ) / 10 * 0) = 0 := by
    rw [show (0x8000 : ℚ) / 10 * 0 = 0 by ring, round_half_away, if_pos le_rfl,
      Int.floor_eq_iff]
    norm_num
  have h32 : int32 0 = 0 := by rw [int32]; decide
  simp only [Fastino.voltage_to_mu, hr, h32]
  norm_num

theorem mu_of_neg_ten (self : Fastino) : self.voltage_to_mu (-10) = .ok 0 := by
  have hr : round_half_away ((0x8000 : ℚ) / 10 * (-10)) = -32768 := by
    rw [show (0x8000 : ℚ) / 10 * (-10) = -32768 by norm_num, round_half_away,
      if_neg (by norm_num), Int.ceil_eq_iff]
    norm_num
  have h32 : int32 (-32768) = -32768 := by rw [int32]; decide
  simp only [Fastino.voltage_to_mu, hr, h32]
  norm_num

theorem mu_of_one (self : Fastino) : self.voltage_to_mu 1 = .ok 36045 := by
  have hr : round_half_away ((0x8000 : ℚ) / 10 * 1) = 3277 := by
    rw [show (0x8000 : ℚ) / 10 * 1 = 3276.8 by norm_num, round_half_away,
      if_pos (by norm_num), Int.floor_eq_iff]
    norm_num
  have h32 : int32 3277 = 3277 := by rw [int32]; decide
  simp only [Fastino.voltage_to_mu, hr, h32]
  norm_num

theorem mu_of_neg_one (self : Fastino) : self.voltage_to_mu (-1) = .ok 29491 := by
  have hr : round_half_away ((0x8000 : ℚ) / 10 * (-1)) = -3277 := by
    rw [show (0x8000 : ℚ) / 10 * (-1) = -3276.8 by norm_num, round_half_away,
      if_neg (by norm_num), Int.ceil_eq_iff]
    norm_num
  have h32 : int32 (-3277) = -3277 := by rw [int32]; decide
  simp only [Fastino.voltage_to_mu, hr, h32]
  norm_num

theorem mu_of_half (self : Fastino) : self.voltage_to_mu (1 / 2) = .ok 34406 := by
  have hr : round_half_away ((0x8000 : ℚ) / 10 * (1 / 2)) = 1638 := by
    rw [show (0x8000 : ℚ) / 10 * (1 / 2) = 1638.4 by norm_num, round_half_away,
      if_pos (by norm_num), Int.floor_eq_iff]
    norm_num
  have h32 : int32 1638 = 1638 := by rw [int32]; decide
  simp only [Fastino.voltage_to_mu, hr, h32]
  norm_num

/-- C5 (amended): `voltage_to_mu(v)` computes
`int32(round(3276.8*v)) + 32768` — the rounded value is wrapped to
two's-complement int32 before the range check — returns it when it lies
in [0, 65535] and raises the RangeError exactly otherwise (no clamping
or wrapping of the final result); when `round(3276.8*v)` is within int32
range the wrap is the identity and the value is `round(3276.8*v)+32768`
as the claim states; `v = 0` gives 0x8000 and `v = -10.0` gives 0x0000. -/
theorem voltage_to_mu_spec (self : Fastino) (v : ℚ) :
    (self.voltage_to_mu v =
        .ok (int32 (round_half_away ((3276.8 : ℚ) * v)) + 32768) ∨
      self.voltage_to_mu v = .error .voltageOutOfBounds) ∧
    (self.voltage_to_mu v = .error .voltageOutOfBounds ↔
      (int32 (round_half_away ((3276.8 : ℚ) * v)) + 32768 < 0 ∨
        65535 < int32 (round_half_away ((3276.8 : ℚ) * v)) + 32768)) ∧
    (-(2 ^ 31) ≤ round_half_away ((3276.8 : ℚ) * v) →
      round_half_away ((3276.8 : ℚ) * v) < 2 ^ 31 →
      int32 (round_half_away ((3276.8 : ℚ) * v)) =
        round_half_away ((3276.8 : ℚ) * v)) ∧
    self.voltage_to_mu 0 = .ok 0x8000 ∧
    self.voltage_to_mu (-10) = .ok 0 := by
  have hq : (0x8000 : ℚ) / 10 = 3276.8 := by norm_num
  have hunf : self.voltage_to_mu v =
      if int32 (round_half_away ((3276.8 : ℚ) * v)) + 32768 < 0 ∨
          65535 < int32 (round_half_away ((3276.8 : ℚ) * v)) + 32768
        then .error .voltageOutOfBounds
        else .ok (int32 (round_half_away ((3276.8 : ℚ) * v)) + 32768) := by
    simp only [Fastino.voltage_to_mu, hq]
  refine ⟨?_, ?_, ?_, mu_of_zero self, mu_of_neg_ten self⟩
  · rw [hunf]
    by_cases hc : int32 (round_half_away ((3276.8 : ℚ) * v)) + 32768 < 0 ∨
        65535 < int32 (round_half_away ((3276.8 : ℚ) * v)) + 32768
    · right
      rw [if_pos hc]
    · left
      rw [if_neg hc]
  · rw [hunf]
    constructor
    · intro h
      by_contra hc
      rw [if_neg hc] at h
      exact absurd h (by simp)
    · intro hc
      rw [if_pos hc]
  · intro hlo hhi
    rw [int32]
    simp only [show ((2 : Int) ^ 31) = 2147483648 from by norm_num,
      show ((2 : Int) ^ 32) = 4294967296 from by norm_num] at hlo hhi ⊢
    omega

/-- Concrete witness for `voltage_to_mu_spec` at v = 0: the rounded
value 0 is within int32 range so the wrap is the identity, and the
result is mid-scale 0x8000. -/
theorem voltage_to_mu_spec_witness :
    int32 (round_half_away ((3276.8 : ℚ) * 0)) = round_half_away ((3276.8 : ℚ) * 0) ∧
    (mkFastino 1 0).voltage_to_mu 0 = .ok 0x8000 := by
  have h0 : round_half_away ((3276.8 : ℚ) * 0) = 0 := by
    rw [show (3276.8 : ℚ) * 0 = 0 by ring, round_half_away, if_pos le_rfl,
      Int.floor_eq_iff]
    norm_num
  exact ⟨(voltage_to_mu_spec (mkFastino 1 0) 0).2.2.1
      (by rw [h0]; norm_num) (by rw [h0]; norm_num),
    (voltage_to_mu_spec (mkFastino 1 0) 0).2.2.2.1⟩

/-- C5 counterexample: at v = 1310720.0 the rounded value is 2^32,
which the int32 cast wraps to 0 before the range check, so
`voltage_to_mu` returns 0x8000 instead of raising although
`round(3276.8*v) + 32768` is far outside [0, 65535]. -/
theorem voltage_to_mu_wrap_cex :
    (mkFastino 1 0).voltage_to_mu 1310720 = .ok 0x8000 ∧
    65535 < round_half_away ((3276.8 : ℚ) * 1310720) + 32768 := by
  have hr : round_half_away ((3276.8 : ℚ) * 1310720) = 4294967296 := by
    rw [show (3276.8 : ℚ) * 1310720 = 4294967296 by norm_num, round_half_away,
      if_pos (by norm_num), Int.floor_eq_iff]
    norm_num
  constructor
  · have hr2 : round_half_away ((0x8000 : ℚ) / 10 * 1310720) = 4294967296 := by
      rw [show (0x8000 : ℚ) / 10 * 1310720 = (3276.8 : ℚ) * 1310720 by norm_num, hr]
    have h32 : int32 4294967296 = 0 := by rw [int32]; decide
    simp only [Fastino.voltage_to_mu, hr2, h32]
    norm_num
  · rw [hr]
    norm_num

/-! Structure of the packing loop. -/

theorem vgStep_error (self : Fastino) (voltage : List ℚ) (e : DriverError)
    (i : Nat) : self.vgStep voltage (.error e) i = .error e := rfl

theorem vg_foldl_error (self : Fastino) (voltage : List ℚ) (l : List Nat)
    (e : DriverError) :
    l.foldl (self.vgStep voltage) (.error e) = .error e := by
  induction l with
  | nil => rfl
  | cons i l ih =>
    rw [List.foldl_cons, vgStep_error]
    exact ih


theorem vgStep_ok (self : Fastino) (voltage : List ℚ) (data : List Nat)
    (i : Nat) :
    self.vgStep voltage (.ok data) i =
      match self.voltage_to_mu (voltage.getD i 0) with
      | .error e => .error e
      | .ok mu =>
        if h : i / 2 < data.length then
          .ok (data.set (i / 2)
            ((if i &&& 1 ≠ 0 then data.get ⟨i / 2, h⟩ ||| mu.toNat <<< 16
              else mu.toNat) % 2 ^ 32))
        else .error .indexOutOfBounds := rfl

theorem vgStep_ok_of_mu_error (self : Fastino) (voltage : List ℚ)
    (data : List Nat) (i : Nat) (e : DriverError)
    (hmu : self.voltage_to_mu (voltage.getD i 0) = .error e) :
    self.vgStep voltage (.ok data) i = .error e := by
  rw [vgStep_ok, hmu]

theorem vgStep_ok_of_mu_ok (self : Fastino) (voltage : List ℚ)
    (data : List Nat) (i : Nat) (mu : Int)
    (hmu : self.voltage_to_mu (voltage.getD i 0) = .ok mu) :
    self.vgStep voltage (.ok data) i =
      if h : i / 2 < data.length then
        .ok (data.set (i / 2)
          ((if i &&& 1 ≠ 0 then data.get ⟨i / 2, h⟩ ||| mu.toNat <<< 16
            else mu.toNat) % 2 ^ 32))
      else .error .indexOutOfBounds := by
  rw [vgStep_ok, hmu]

theorem vgStep_ok_length (self : Fastino) (voltage : List ℚ)
    (data out : List Nat) (i : Nat)
    (h : self.vgStep voltage (.ok data) i = .ok out) :
    out.length = data.length := by
  cases hmu : self.voltage_to_mu (voltage.getD i 0) with
  | error e =>
    rw [vgStep_ok_of_mu_error self voltage data i e hmu] at h
    exact absurd h (by simp)
  | ok mu =>
    rw [vgStep_ok_of_mu_ok self voltage data i mu hmu] at h
    by_cases hlen : i / 2 < data.length
    · rw [dif_pos hlen] at h
      rw [← Except.ok.inj h, List.length_set]
    · rw [dif_neg hlen] at h
      exact absurd h (by simp)

theorem vg_foldl_ok_length (self : Fastino) (voltage : List ℚ)
    (l : List Nat) (data out : List Nat)
    (h : l.foldl (self.vgStep voltage) (.ok data) = .ok out) :
    out.length = data.length := by
  induction l generalizing data with
  | nil =>
    rw [List.foldl_nil] at h
    rw [← Except.ok.inj h]
  | cons i l ih =>
    rw [List.foldl_cons] at h
    cases hstep : self.vgStep voltage (.ok data) i with
    | error e =>
      rw [hstep, vg_foldl_error] at h
      exact absurd h (by simp)
    | ok data2 =>
      rw [hstep] at h
      exact (ih data2 h).trans (vgStep_ok_length self voltage data data2 i hstep)

theorem vg_pair_eval :
    (mkFastino 1 2).voltage_group_to_mu [1, -1]
      (List.replicate (([1, -1] : List ℚ).length / 2) 0) =
      .ok [36045 ||| 29491 <<< 16] := by
  have hs0 : (mkFastino 1 2).vgStep [1, -1] (.ok [0]) 0 = .ok [36045] := by
    rw [vgStep_ok_of_mu_ok (mkFastino 1 2) [1, -1] [0] 0 36045
        (mu_of_one (mkFastino 1 2)),
      dif_pos (by norm_num)]
    norm_num
    decide
  have hs1 : (mkFastino 1 2).vgStep [1, -1] (.ok [36045]) 1 =
      .ok [36045 ||| 29491 <<< 16] := by
    rw [vgStep_ok_of_mu_ok (mkFastino 1 2) [1, -1] [36045] 1 29491
        (mu_of_neg_one (mkFastino 1 2)),
      dif_pos (by norm_num)]
    norm_num
    decide
  rw [Fastino.voltage_group_to_mu,
    show List.range (([1, -1] : List ℚ).length) = [0, 1] from rfl,
    show List.replicate (([1, -1] : List ℚ).length / 2) (0 : Nat) = [0] from rfl,
    List.foldl_cons, hs0, List.foldl_cons, hs1, List.foldl_nil]

/-- C4 (amended): a successful `set_group(first_channel, voltages)`
issues exactly one wide write to address `channel_base<<8 | first_channel`
carrying `len(voltages) / 2` packed words — the software does not
zero-fill up to the group width (the gateware clears the remaining group
channels), and an odd-length voltage list never reaches the write (see
the C3 analysis); concretely, on a `log2_width = 2` device,
`set_group(0, [1.0, -1.0])` issues the single wide word
`mu(1.0) | mu(-1.0) << 16` to address `channel_base<<8 | 0`. -/
theorem set_group_emission (ch l2w dac : Nat) (voltage : List ℚ) :
    (∀ evs u, (mkFastino ch l2w).set_group dac voltage = (evs, .ok u) →
      ∃ ws, evs = [.rtio_output_wide ((ch <<< 8) ||| dac) ws] ∧
        ws.length = voltage.length / 2) ∧
    (mkFastino 1 2).set_group 0 [1, -1] =
      ([.rtio_output_wide ((1 <<< 8) ||| 0) [36045 ||| 29491 <<< 16]], .ok ()) := by
  constructor
  · intro evs u h
    cases hvg : (mkFastino ch l2w).voltage_group_to_mu voltage
        (List.replicate (voltage.length / 2) 0) with
    | error e =>
      have h2 : (([], Except.error e) : List RtioEvent × Except DriverError Unit) =
          (evs, .ok u) := by
        rw [Fastino.set_group, hvg] at h
        exact h
      exact absurd (congrArg Prod.snd h2) (by simp)
    | ok data2 =>
      have h2 : (mkFastino ch l2w).set_group_mu dac data2 = (evs, .ok u) := by
        rw [Fastino.set_group, hvg] at h
        exact h
      rw [Fastino.set_group_mu] at h2
      by_cases hal : dac &&& ((mkFastino ch l2w).width - 1) ≠ 0
      · rw [if_pos hal] at h2
        exact absurd (congrArg Prod.snd h2) (by simp)
      · rw [if_neg hal] at h2
        refine ⟨data2, (congrArg Prod.fst h2).symm, ?_⟩
        have hl := vg_foldl_ok_length (mkFastino ch l2w) voltage _ _ _ hvg
        rw [hl, List.length_replicate]
  · have hsg : (mkFastino 1 2).set_group 0 [1, -1] =
        (mkFastino 1 2).set_group_mu 0 [36045 ||| 29491 <<< 16] := by
      rw [Fastino.set_group, vg_pair_eval]
    rw [hsg, Fastino.set_group_mu, if_neg (by decide)]
    rfl

/-- Concrete witness for the general clause of `set_group_emission`,
instantiated at its own concrete example `set_group(0, [1.0, -1.0])`. -/
theorem set_group_emission_witness :
    ∃ ws, [RtioEvent.rtio_output_wide (((1 : Nat) <<< 8) ||| 0) [36045 ||| 29491 <<< 16]] =
      [RtioEvent.rtio_output_wide ((1 <<< 8) ||| 0) ws] ∧
      ws.length = ([1, -1] : List ℚ).length / 2 :=
  (set_group_emission 1 2 0 [1, -1]).1 _ ()
    (set_group_emission 1 2 0 [1, -1]).2

/-- C3: the claim fails on the code — packing an odd-length voltage
list through `set_group` does not succeed: `set_group` sizes the word
list as `len(voltage) // 2`, and on the final even index
`voltage_group_to_mu` stores to `data[len // 2]`, out of bounds, so
`set_group(0, [0.5])` fails with the index error and emits no write;
with a correctly sized buffer, `voltage_group_to_mu` does pack the
unpaired sample with 0 in the upper half (`[0.5]` into `[0]` gives
`[mu(0.5)] = [34406]` with zero upper bits). -/
theorem set_group_odd_length_eval :
    (mkFastino 1 2).set_group 0 [1 / 2] = ([], .error .indexOutOfBounds) ∧
    (mkFastino 1 2).voltage_group_to_mu [1 / 2] [0] = .ok [34406] := by
  have hs0 : (mkFastino 1 2).vgStep [1 / 2] (.ok []) 0 = .error .indexOutOfBounds := by
    rw [vgStep_ok_of_mu_ok (mkFastino 1 2) [1 / 2] [] 0 34406
        (mu_of_half (mkFastino 1 2)),
      dif_neg (by norm_num)]
  have hvg : (mkFastino 1 2).voltage_group_to_mu [1 / 2]
      (List.replicate (([1 / 2] : List ℚ).length / 2) 0) =
      .error .indexOutOfBounds := by
    rw [Fastino.voltage_group_to_mu,
      show List.range (([1 / 2] : List ℚ).length) = [0] from rfl,
      show List.replicate (([1 / 2] : List ℚ).length / 2) (0 : Nat) = [] from rfl,
      List.foldl_cons, hs0, List.foldl_nil]
  constructor
  · rw [Fastino.set_group, hvg]
  · have hs1 : (mkFastino 1 2).vgStep [1 / 2] (.ok [0]) 0 = .ok [34406] := by
      rw [vgStep_ok_of_mu_ok (mkFastino 1 2) [1 / 2] [0] 0 34406
          (mu_of_half (mkFastino 1 2)),
        dif_pos (by norm_num)]
      norm_num
      decide
    rw [Fastino.voltage_group_to_mu,
      show List.range (([1 / 2] : List ℚ).length) = [0] from rfl,
      List.foldl_cons, hs1, List.foldl_nil]

/-! Outcome case analyses: every fallible operation either emits no
event and an error, or exactly one write and success. -/

theorem set_dac_eq (self : Fastino) (dac : Nat) (v : ℚ) :
    self.set_dac dac v =
      match self.voltage_to_mu v with
      | .error e => ([], .error e)
      | .ok mu => (self.write dac mu.toNat, .ok ()) := rfl

theorem set_dac_cases (self : Fastino) (dac : Nat) (v : ℚ) :
    (∃ e, self.set_dac dac v = ([], .error e)) ∨
    ∃ w, self.set_dac dac v = ([w], .ok ()) := by
  cases hv : self.voltage_to_mu v with
  | error e =>
    left
    refine ⟨e, ?_⟩
    rw [set_dac_eq, hv]
  | ok mu =>
    right
    refine ⟨.rtio_output (self.channel ||| dac) mu.toNat, ?_⟩
    rw [set_dac_eq, hv]
    rfl

theorem set_group_mu_cases (self : Fastino) (dac : Nat) (data : List Nat) :
    (∃ e, self.set_group_mu dac data = ([], .error e)) ∨
    ∃ w, self.set_group_mu dac data = ([w], .ok ()) := by
  rw [Fastino.set_group_mu]
  by_cases hal : dac &&& (self.width - 1) ≠ 0
  · left
    exact ⟨.groupIndexMisaligned, by rw [if_pos hal]⟩
  · right
    exact ⟨.rtio_output_wide (self.channel ||| dac) data, by rw [if_neg hal]⟩

theorem set_group_cases (self : Fastino) (dac : Nat) (voltage : List ℚ) :
    (∃ e, self.set_group dac voltage = ([], .error e)) ∨
    ∃ w, self.set_group dac voltage = ([w], .ok ()) := by
  cases hvg : self.voltage_group_to_mu voltage
      (List.replicate (voltage.length / 2) 0) with
  | error e =>
    left
    exact ⟨e, by rw [Fastino.set_group, hvg]⟩
  | ok d2 =>
    have h2 : self.set_group dac voltage = self.set_group_mu dac d2 := by
      rw [Fastino.set_group, hvg]
    rw [h2]
    exact set_group_mu_cases self dac d2

theorem stage_cic_mu_cases (self : Fastino) (mant ex g : Int) :
    (∃ e, self.stage_cic_mu mant ex g = ([], .error e)) ∨
    ∃ w, self.stage_cic_mu mant ex g = ([w], .ok ()) := by
  rw [Fastino.stage_cic_mu]
  by_cases h1 : mant < 0 ∨ 64 ≤ mant
  · left
    exact ⟨.rateMantissaOutOfBounds, by rw [if_pos h1]⟩
  · rw [if_neg h1]
    by_cases h2 : ex < 0 ∨ 16 ≤ ex
    · left
      exact ⟨.rateExponentOutOfBounds, by rw [if_pos h2]⟩
    · rw [if_neg h2]
      by_cases h3 : g < 0 ∨ 64 ≤ g
      · left
        exact ⟨.gainExponentOutOfBounds, by rw [if_pos h3]⟩
      · right
        refine ⟨.rtio_output (self.channel ||| 0x26)
          (mant.toNat ||| ex.toNat <<< 6 ||| g.toNat <<< 10), ?_⟩
        rw [if_neg h3]
        rfl

theorem stage_cic_cases (self : Fastino) (rate : Int) :
    (∃ e, self.stage_cic rate = ([], .error e)) ∨
    ∃ w a, self.stage_cic rate = ([w], .ok a) := by
  by_cases hr : rate ≤ 0 ∨ 65536 < rate
  · left
    exact ⟨.rateOutOfBounds, by rw [Fastino.stage_cic, if_pos hr]⟩
  · by_cases hg : (cicParams rate.toNat).2.2 ≤ Fastino.order * 16
    · rcases stage_cic_mu_cases self (((cicParams rate.toNat).1 : Int) - 1)
          ((cicParams rate.toNat).2.1 : Int) ((cicParams rate.toNat).2.2 : Int) with
        ⟨e, hmu⟩ | ⟨w, hmu⟩
      · left
        refine ⟨e, ?_⟩
        simp only [Fastino.stage_cic]
        rw [if_neg hr, if_pos hg, hmu]
      · right
        refine ⟨w, (((cicParams rate.toNat).1 <<< (cicParams rate.toNat).2.1 : Nat) : Int), ?_⟩
        simp only [Fastino.stage_cic]
        rw [if_neg hr, if_pos hg, hmu]
    · left
      refine ⟨.assertionFailed, ?_⟩
      simp only [Fastino.stage_cic]
      rw [if_neg hr, if_neg hg]

/-- C8: every operation that can fail (voltage conversion, group
packing, group alignment, CIC staging) validates before writing: for
every input it either emits no event at all together with its error, or
fully validates and emits exactly the single intended write. -/
theorem error_before_write (ch l2w dac : Nat) (v : ℚ) (voltage : List ℚ)
    (data : List Nat) (rate mant ex g : Int) :
    ((∃ e, (mkFastino ch l2w).set_dac dac v = ([], .error e)) ∨
      ∃ w, (mkFastino ch l2w).set_dac dac v = ([w], .ok ())) ∧
    ((∃ e, (mkFastino ch l2w).set_group dac voltage = ([], .error e)) ∨
      ∃ w, (mkFastino ch l2w).set_group dac voltage = ([w], .ok ())) ∧
    ((∃ e, (mkFastino ch l2w).set_group_mu dac data = ([], .error e)) ∨
      ∃ w, (mkFastino ch l2w).set_group_mu dac data = ([w], .ok ())) ∧
    ((∃ e, (mkFastino ch l2w).stage_cic rate = ([], .error e)) ∨
      ∃ w a, (mkFastino ch l2w).stage_cic rate = ([w], .ok a)) ∧
    ((∃ e, (mkFastino ch l2w).stage_cic_mu mant ex g = ([], .error e)) ∨
      ∃ w, (mkFastino ch l2w).stage_cic_mu mant ex g = ([w], .ok ())) :=
  ⟨set_dac_cases _ dac v, set_group_cases _ dac voltage,
    set_group_mu_cases _ dac data, stage_cic_cases _ rate,
    stage_cic_mu_cases _ mant ex g⟩

/-- C7: every register operation targets `(channel_base << 8) | offset`
with the fixed register map — update mask 0x20, hold mask 0x21, cfg
0x22, LEDs 0x23, continuous mask 0x25, staged CIC config 0x26,
apply-CIC mask 0x27 — with the cfg word packed as
`reset | afe_power_down<<1 | dac_clr<<2 | clr_err<<3` and the CIC
config packed as `rate_mantissa | rate_exponent<<6 | gain_exponent<<10`. -/
theorem register_map_spec (ch l2w addr d m hm l cm am : Nat)
    (r a dc ce : Bool) (mant ex g : Int) :
    (mkFastino ch l2w).write addr d = [.rtio_output ((ch <<< 8) ||| addr) d] ∧
    (mkFastino ch l2w).update m = [.rtio_output ((ch <<< 8) ||| 0x20) m] ∧
    (mkFastino ch l2w).set_hold hm = [.rtio_output ((ch <<< 8) ||| 0x21) hm] ∧
    (mkFastino ch l2w).set_cfg r a dc ce =
      [.rtio_output ((ch <<< 8) ||| 0x22)
        (r.toNat ||| a.toNat <<< 1 ||| dc.toNat <<< 2 ||| ce.toNat <<< 3)] ∧
    (mkFastino ch l2w).set_leds l = [.rtio_output ((ch <<< 8) ||| 0x23) l] ∧
    (mkFastino ch l2w).set_continuous cm =
      [.rtio_output ((ch <<< 8) ||| 0x25) cm] ∧
    (mkFastino ch l2w).apply_cic am = [.rtio_output ((ch <<< 8) ||| 0x27) am] ∧
    (0 ≤ mant → mant < 64 → 0 ≤ ex → ex < 16 → 0 ≤ g → g < 64 →
      (mkFastino ch l2w).stage_cic_mu mant ex g =
        ([.rtio_output ((ch <<< 8) ||| 0x26)
          (mant.toNat ||| ex.toNat <<< 6 ||| g.toNat <<< 10)], .ok ())) := by
  refine ⟨rfl, rfl, rfl, rfl, rfl, rfl, rfl, ?_⟩
  intro h1 h2 h3 h4 h5 h6
  rw [Fastino.stage_cic_mu, if_neg (by omega), if_neg (by omega),
    if_neg (by omega)]
  rfl

/-- Concrete witness for `register_map_spec`: the staged-CIC write for
in-range machine-unit arguments (3, 4, 5). -/
theorem register_map_spec_witness :
    (mkFastino 1 0).stage_cic_mu 3 4 5 =
      ([.rtio_output ((1 <<< 8) ||| 0x26)
        ((3 : Int).toNat ||| (4 : Int).toNat <<< 6 ||| (5 : Int).toNat <<< 10)],
        .ok ()) :=
  (register_map_spec 1 0 0 0 0 0 0 0 0 false false false false 3 4 5).2.2.2.2.2.2.2
    (by norm_num) (by norm_num) (by norm_num) (by norm_num) (by norm_num)
    (by norm_num)

/-- C10: `set_dac_mu` and `set_dac` perform no validation of the
channel index: for every `dac` value they write to
`channel_base<<8 | dac`, so `set_dac_mu(0x20, data)` issues exactly the
same write as `update(data)`, targeting the update-mask register. -/
theorem set_dac_mu_no_validation (ch l2w dac data : Nat) (v : ℚ) (mu : Int) :
    (mkFastino ch l2w).set_dac_mu dac data =
      [.rtio_output ((ch <<< 8) ||| dac) data] ∧
    (mkFastino ch l2w).set_dac_mu 0x20 data = (mkFastino ch l2w).update data ∧
    ((mkFastino ch l2w).voltage_to_mu v = .ok mu →
      (mkFastino ch l2w).set_dac dac v =
        ([.rtio_output ((ch <<< 8) ||| dac) mu.toNat], .ok ())) := by
  refine ⟨rfl, rfl, ?_⟩
  intro hv
  rw [set_dac_eq, hv]
  rfl

/-- Concrete witness for `set_dac_mu_no_validation`: `set_dac(0x20, 0.0)`
silently writes mid-scale to the update-mask register address. -/
theorem set_dac_mu_no_validation_witness :
    (mkFastino 3 0).set_dac 0x20 0 =
      ([.rtio_output ((3 <<< 8) ||| 0x20) ((0x8000 : Int).toNat)], .ok ()) :=
  (set_dac_mu_no_validation 3 0 0x20 0 0 0x8000).2.2 (mu_of_zero (mkFastino 3 0))

/-- C4 counterexample: at the claim's concrete input, `set_group(0,
[1.0, -1.0, 0.5])` on a `log2_width = 2` device does not issue two wide
words — the packing loop overruns the `len(voltage) // 2`-word buffer on
the third sample and fails with the index error, emitting nothing. -/
theorem set_group_three_cex :
    (mkFastino 1 2).set_group 0 [1, -1, 1 / 2] = ([], .error .indexOutOfBounds) := by
  have hs0 : (mkFastino 1 2).vgStep [1, -1, 1 / 2] (.ok [0]) 0 = .ok [36045] := by
    rw [vgStep_ok_of_mu_ok (mkFastino 1 2) [1, -1, 1 / 2] [0] 0 36045
        (mu_of_one (mkFastino 1 2)),
      dif_pos (by norm_num)]
    norm_num
    decide
  have hs1 : (mkFastino 1 2).vgStep [1, -1, 1 / 2] (.ok [36045]) 1 =
      .ok [36045 ||| 29491 <<< 16] := by
    rw [vgStep_ok_of_mu_ok (mkFastino 1 2) [1, -1, 1 / 2] [36045] 1 29491
        (mu_of_neg_one (mkFastino 1 2)),
      dif_pos (by norm_num)]
    norm_num
    decide
  have hs2 : (mkFastino 1 2).vgStep [1, -1, 1 / 2] (.ok [36045 ||| 29491 <<< 16]) 2 =
      .error .indexOutOfBounds := by
    rw [vgStep_ok_of_mu_ok (mkFastino 1 2) [1, -1, 1 / 2] [36045 ||| 29491 <<< 16] 2
        34406 (mu_of_half (mkFastino 1 2)),
      dif_neg (by norm_num)]
  have hvg : (mkFastino 1 2).voltage_group_to_mu [1, -1, 1 / 2]
      (List.replicate (([1, -1, 1 / 2] : List ℚ).length / 2) 0) =
      .error .indexOutOfBounds := by
    rw [Fastino.voltage_group_to_mu,
      show List.range (([1, -1, 1 / 2] : List ℚ).length) = [0, 1, 2] from rfl,
      show List.replicate (([1, -1, 1 / 2] : List ℚ).length / 2) (0 : Nat) = [0] from rfl,
      List.foldl_cons, hs0, List.foldl_cons, hs1, List.foldl_cons, hs2,
      List.foldl_nil]
  rw [Fastino.set_group, hvg]
